import Mathlib

/-!
Verification of the mobilePCD audio-analysis engine against its
natural-language specification.

The JavaScript source is shallowly embedded: JavaScript numbers (IEEE
doubles / Float32 values) are modelled as exact real numbers (`ℝ`) where
transcendental functions occur, and as rationals (`ℚ`) for the
configuration scalars, whose comparisons and clamps are exact; JavaScript
`%` on numbers is `Int.tmod` (truncated remainder); `x | 0` is truncation
toward zero (the 32-bit wrap of very large values is idealized away, as is
float rounding); typed arrays are total functions with the source's index
ranges made explicit.
-/

namespace MobilePCD

/-! ## Definitions: pitch-class lookup
(src/unnamed/part_002, `PitchClassComputer.ensureLookup`) -/

/-- JavaScript `((x % 12) + 12) % 12` with `%` the truncated remainder. -/
def wrap12 (m : ℤ) : ℤ := (m.tmod 12 + 12).tmod 12

/-- Bin spacing in Hz, `sampleRate / (length * 2)` (the code's
`binHz` in both `ensureLookup` and `compute`). -/
def binHzOf (len : ℕ) (sampleRate : ℚ) : ℚ := sampleRate / (len * 2)

/-- The entry the lookup table built by `ensureLookup` holds at bin `k`:
for `freq = k * binHz > 0`, `midi = 69 + 12 * (log2 freq - log2 a4)` and
the entry is `((round midi % 12) + 12) % 12`; bins with `freq ≤ 0` hold
`0`.  The table stores pitch classes in `[0, 11]`, given as `Fin 12`. -/
noncomputable def lookupEntry (len : ℕ) (sampleRate a4 : ℚ) (k : ℤ) : Fin 12 :=
  let freq : ℚ := k * binHzOf len sampleRate
  if 0 < freq then
    let m : ℤ := round ((69 : ℝ) + 12 * (Real.logb 2 (freq : ℝ) - Real.logb 2 (a4 : ℝ)))
    ⟨(wrap12 m).toNat, by
      have h := Int.tmod_lt_of_pos (m.tmod 12 + 12) (show (0 : ℤ) < 12 by norm_num)
      show ((m.tmod 12 + 12).tmod 12).toNat < 12
      omega⟩
  else 0

/-- The cache state of `PitchClassComputer`: the built table (if any) and
the key it was built for. -/
structure PcState where
  lookupTable : Option (ℤ → Fin 12)
  prevSampleRate : ℚ
  prevA4 : ℚ
  prevLength : ℕ

/-- `ensureLookup`: rebuild the table only when the cache key
`(length, sampleRate, a4)` changed or no table exists yet. -/
noncomputable def ensureLookup (s : PcState) (len : ℕ) (sampleRate a4 : ℚ) : PcState :=
  if s.lookupTable.isSome ∧ s.prevSampleRate = sampleRate ∧ s.prevA4 = a4 ∧
      s.prevLength = len then s
  else ⟨some (lookupEntry len sampleRate a4), sampleRate, a4, len⟩

/-! ## Definitions: pitch-class distribution
(src/unnamed/part_002, `PitchClassComputer.compute`) -/

/-- The audio configuration record (`DEFAULT_AUDIO_CONFIG` shape); it is
also what `compute` receives as its `options` argument. -/
structure Config where
  windowSize : ℕ
  hopSize : ℕ
  minHz : ℚ
  maxHz : ℚ
  smoothing : ℚ
  pcdMinRms : ℚ
  pcdThreshold : ℚ
  pcdNormalize : ℚ
  refA4 : ℚ

def DEFAULT_AUDIO_CONFIG : Config :=
  { windowSize := 16384, hopSize := 1024, minHz := 50, maxHz := 5000,
    smoothing := 3/5, pcdMinRms := 1/1000, pcdThreshold := 1/200,
    pcdNormalize := 1, refA4 := 440 }

def minBinOf (len : ℕ) (sampleRate minHz : ℚ) : ℤ :=
  max 1 ⌊minHz / binHzOf len sampleRate⌋

def maxBinOf (len : ℕ) (sampleRate maxHz : ℚ) : ℤ :=
  min ((len : ℤ) - 1) ⌊maxHz / binHzOf len sampleRate⌋

/-- Energy accumulated into pitch class `c` by the aggregation loop:
`magnitude²` for every bin in `[minBin, maxBin]` above the threshold that
maps to `c`. -/
noncomputable def pcdAccum (mags : ℤ → ℝ) (len : ℕ) (sampleRate : ℚ) (o : Config)
    (c : Fin 12) : ℝ :=
  ∑ k ∈ Finset.Icc (minBinOf len sampleRate o.minHz) (maxBinOf len sampleRate o.maxHz),
    if (o.pcdThreshold : ℝ) < mags k ∧ lookupEntry len sampleRate o.refA4 k = c then
      mags k ^ 2
    else 0

/-- The 12 values after the optional power normalization (`Math.pow` per
entry when the exponent differs from 1). -/
noncomputable def pcdPowed (mags : ℤ → ℝ) (len : ℕ) (sampleRate : ℚ) (o : Config)
    (c : Fin 12) : ℝ :=
  if o.pcdNormalize ≠ 1 then
    pcdAccum mags len sampleRate o c ^ (o.pcdNormalize : ℝ)
  else pcdAccum mags len sampleRate o c

/-- `PitchClassComputer.compute`: aggregate, optionally power-normalize,
then scale by `1 / sum` when the sum is positive. -/
noncomputable def pcdCompute (mags : ℤ → ℝ) (len : ℕ) (sampleRate : ℚ) (o : Config) :
    Fin 12 → ℝ :=
  if 0 < ∑ c, pcdPowed mags len sampleRate o c then
    fun c => pcdPowed mags len sampleRate o c * (1 / ∑ c, pcdPowed mags len sampleRate o c)
  else pcdPowed mags len sampleRate o

/-- The spec's reference definition of the pitch-class distribution
(for C2): starting from zero, for every bin `k` with
`max(1, floor(minHz/bin_hz)) ≤ k ≤ min(length-1, floor(maxHz/bin_hz))`
whose magnitude exceeds the threshold, `magnitude²` is added to that bin's
pitch class; if the normalization exponent differs from 1 each of the 12
accumulated values is raised to that exponent; and if the resulting sum is
positive all 12 values are scaled to sum to exactly 1, otherwise all 12
are zero. -/
noncomputable def pcdComputeSpec (mags : ℤ → ℝ) (len : ℕ) (sampleRate : ℚ) (o : Config) :
    Fin 12 → ℝ :=
  let binHz : ℚ := sampleRate / (2 * len)
  let acc : Fin 12 → ℝ := fun c =>
    ∑ k ∈ Finset.Icc (max 1 ⌊o.minHz / binHz⌋) (min ((len : ℤ) - 1) ⌊o.maxHz / binHz⌋),
      if (o.pcdThreshold : ℝ) < mags k ∧ lookupEntry len sampleRate o.refA4 k = c then
        mags k ^ 2
      else 0
  let vals : Fin 12 → ℝ := fun c =>
    if o.pcdNormalize ≠ 1 then acc c ^ (o.pcdNormalize : ℝ) else acc c
  if 0 < ∑ c, vals c then fun c => vals c / ∑ c, vals c else fun _ => 0

/-! ## Definitions: per-hop gate and smoothing
(src/unnamed/part_004, `AudioProcessor.processFrame`, lines 294-306) -/

/-- The inputs one processed hop feeds into the PCD path: the RMS of the
windowed analysis frame and the magnitude spectrum (with its length). -/
structure HopInput where
  rms : ℝ
  mags : ℤ → ℝ
  len : ℕ

/-- The source's `clamp(value, min, max) = Math.min(max, Math.max(min, value))`. -/
def clampQ (value lo hi : ℚ) : ℚ := min hi (max lo value)

/-- The raw PCD a hop produces: `compute` when `rms >= pcdMinRms`, the
silent all-zero output otherwise. -/
noncomputable def hopRaw (cfg : Config) (sr : ℚ) (h : HopInput) : Fin 12 → ℝ :=
  if (cfg.pcdMinRms : ℝ) ≤ h.rms then pcdCompute h.mags h.len sr cfg else fun _ => 0

/-- The unconditional EMA update applied to the smoothed PCD every hop:
`smoothed[i] = smoothing*smoothed[i] + (1-smoothing)*raw[i]` with
`smoothing = clamp(config.smoothing, 0, 0.999)`. -/
noncomputable def smoothStep (cfg : Config) (s raw : Fin 12 → ℝ) : Fin 12 → ℝ :=
  fun i => ((clampQ cfg.smoothing 0 0.999 : ℚ) : ℝ) * s i +
    (1 - ((clampQ cfg.smoothing 0 0.999 : ℚ) : ℝ)) * raw i

/-- The smoothed PCD after a sequence of processed hops, starting from the
all-zero reset state. -/
noncomputable def runHops (cfg : Config) (sr : ℚ) (hops : List HopInput) : Fin 12 → ℝ :=
  hops.foldl (fun s h => smoothStep cfg s (hopRaw cfg sr h)) (fun _ => 0)

/-! ## Definitions: primary pitch estimation
(src/unnamed/part_003, `estimatePrimary`) -/

/-- The record a successful estimate returns: refined frequency, refined
(sub-bin) bin index, and prominence in dB. -/
structure PrimaryResult where
  freq : ℝ
  kRef : ℝ
  prominenceDb : ℝ

/-- The max-search loop of `estimatePrimary`: scan bins `i..kMax`,
tracking the running maximum value (seeded with 0) and its bin. -/
noncomputable def maxLoop (mags : ℤ → ℝ) (kMax : ℤ) (i : ℤ) (maxVal : ℝ) (k : ℤ) : ℝ × ℤ :=
  if i ≤ kMax then
    if maxVal < mags i then maxLoop mags kMax (i + 1) (mags i) i
    else maxLoop mags kMax (i + 1) maxVal k
  else (maxVal, k)
termination_by (kMax + 1 - i).toNat
decreasing_by
  all_goals omega

/-- The neighborhood loop: every second bin in `[i, hi]`, excluding the
peak bin `k`, accumulating a sum and a count. -/
noncomputable def neighborLoop (mags : ℤ → ℝ) (hi k : ℤ) (i : ℤ) (sum : ℝ) (count : ℕ) :
    ℝ × ℕ :=
  if i ≤ hi then
    if i ≠ k then neighborLoop mags hi k (i + 2) (sum + mags i) (count + 1)
    else neighborLoop mags hi k (i + 2) sum count
  else (sum, count)
termination_by (hi + 1 - i).toNat
decreasing_by
  all_goals omega

/-- `estimatePrimary(magnitudes, sampleRate, minHz, maxHz)`:
`binHz = sampleRate/(halfSize*2)`, search range clamped to
`[max(2, floor(minHz/binHz)), min(halfSize-3, floor(maxHz/binHz))]`;
`null` when the range's maximum is below the absolute floor `1e-6`, else a
record with stride-2 neighborhood prominence and parabolic sub-bin
refinement clamped to `[-1, 1]`. -/
noncomputable def estimatePrimary (mags : ℤ → ℝ) (len : ℕ) (sampleRate minHz maxHz : ℚ) :
    Option PrimaryResult :=
  let binHz : ℚ := binHzOf len sampleRate
  let kMin : ℤ := max 2 ⌊minHz / binHz⌋
  let kMax : ℤ := min ((len : ℤ) - 3) ⌊maxHz / binHz⌋
  let mk := maxLoop mags kMax kMin 0 kMin
  if mk.1 < 1e-6 then none
  else
    let lo : ℤ := max kMin (mk.2 - 10)
    let hi : ℤ := min kMax (mk.2 + 10)
    let sc := neighborLoop mags hi mk.2 lo 0 0
    let avgNeighbor : ℝ := if 0 < sc.2 then sc.1 / (sc.2 : ℝ) else 0
    let prominenceDb : ℝ :=
      if 0 < avgNeighbor then 20 * Real.logb 10 ((mk.1 + 1e-12) / (avgNeighbor + 1e-12))
      else 0
    let a := mags (mk.2 - 1)
    let b := mags mk.2
    let c := mags (mk.2 + 1)
    let denom : ℝ := if a - 2 * b + c = 0 then 1e-12 else a - 2 * b + c
    let delta := 0.5 * (a - c) / denom
    let kRef : ℝ := (mk.2 : ℝ) + max (-1) (min 1 delta)
    some ⟨kRef * (binHz : ℝ), kRef, prominenceDb⟩

/-! ## Definitions: real FFT (src/unnamed/part_002, `RealFFT`) -/

/-- `let size = 1; while (size < L) size <<= 1` — the transform length.
The guard's `0 < size` conjunct is an invariant of the loop (the seed is 1
and doubling preserves it), recorded in the guard for termination. -/
def nextPow2Go (L size : ℕ) : ℕ :=
  if h : 0 < size ∧ size < L then nextPow2Go L (2 * size) else size
termination_by L - size
decreasing_by omega

def nextPow2 (L : ℕ) : ℕ := nextPow2Go L 1

/-- The inner while of the incremental bit-reversal construction:
`for (; j & bit; bit >>= 1) j ^= bit;` followed by the final `j ^= bit`. -/
def bitRevStep (j bit : ℕ) : ℕ :=
  if h : j &&& bit ≠ 0 then bitRevStep (j ^^^ bit) (bit / 2) else j ^^^ bit
termination_by bit
decreasing_by
  have hb : bit ≠ 0 := fun hz => h (by simp [hz])
  omega

/-- The table-building loop of `ensureSize`: `j` is carried across bins
and entry `i` is set to the updated `j` (entry 0 keeps its zero default). -/
def bitRevTableGo (size : ℕ) (i j : ℕ) (t : ℕ → ℕ) : ℕ → ℕ :=
  if h : i < size then
    let jNext := bitRevStep j (size / 2)
    bitRevTableGo size (i + 1) jNext (Function.update t i jNext)
  else t
termination_by size - i
decreasing_by omega

def bitRevTable (size : ℕ) : ℕ → ℕ := bitRevTableGo size 1 0 (fun _ => 0)

/-- FFT scratch state: the real and imaginary buffers. -/
structure FftState where
  re : ℕ → ℝ
  im : ℕ → ℝ

/-- Swap entries `i` and `j` of both buffers. -/
noncomputable def swapAt (s : FftState) (i j : ℕ) : FftState :=
  ⟨Function.update (Function.update s.re i (s.re j)) j (s.re i),
   Function.update (Function.update s.im i (s.im j)) j (s.im i)⟩

/-- The bit-reversal permutation pass: for `i` in `1..size-1`, swap `i`
with `table[i]` when `i < table[i]`. -/
noncomputable def bitRevPassGo (table : ℕ → ℕ) (size : ℕ) (i : ℕ) (s : FftState) :
    FftState :=
  if h : i < size then
    bitRevPassGo table size (i + 1) (if i < table i then swapAt s i (table i) else s)
  else s
termination_by size - i
decreasing_by omega

/-- Innermost butterfly loop over `k < halfLen`, carrying the running
twiddle `(wRe, wIm)`. -/
noncomputable def butterflyK (i halfLen : ℕ) (wlenRe wlenIm : ℝ) (k : ℕ) (wRe wIm : ℝ)
    (s : FftState) : FftState :=
  if h : k < halfLen then
    let uRe := s.re (i + k)
    let uIm := s.im (i + k)
    let vRe := s.re (i + k + halfLen) * wRe - s.im (i + k + halfLen) * wIm
    let vIm := s.re (i + k + halfLen) * wIm + s.im (i + k + halfLen) * wRe
    let s' : FftState :=
      ⟨Function.update (Function.update s.re (i + k) (uRe + vRe)) (i + k + halfLen)
          (uRe - vRe),
        Function.update (Function.update s.im (i + k) (uIm + vIm)) (i + k + halfLen)
          (uIm - vIm)⟩
    butterflyK i halfLen wlenRe wlenIm (k + 1) (wRe * wlenRe - wIm * wlenIm)
      (wRe * wlenIm + wIm * wlenRe) s'
  else s
termination_by halfLen - k
decreasing_by omega

/-- Middle loop over block starts `i = 0, len, 2*len, ...` (the `0 < len`
conjunct is an invariant — `len` starts at 2 and doubles — recorded in the
guard for termination). -/
noncomputable def butterflyBlocks (size len : ℕ) (wlenRe wlenIm : ℝ) (i : ℕ)
    (s : FftState) : FftState :=
  if h : 0 < len ∧ i < size then
    butterflyBlocks size len wlenRe wlenIm (i + len)
      (butterflyK i (len / 2) wlenRe wlenIm 0 1 0 s)
  else s
termination_by size - i
decreasing_by omega

/-- Outer loop over stage lengths `len = 2, 4, ..., ≤ size`, with the
per-stage root of unity `(cos ang, sin ang)`, `ang = -2π/len`. -/
noncomputable def butterflyStages (size len : ℕ) (s : FftState) : FftState :=
  if h : 0 < len ∧ len ≤ size then
    butterflyStages size (2 * len)
      (butterflyBlocks size len (Real.cos (-2 * Real.pi / len))
        (Real.sin (-2 * Real.pi / len)) 0 s)
  else s
termination_by size + 1 - len
decreasing_by omega

/-- `RealFFT.transform`: round the frame length up to the next power of
two, zero-pad the signal into the real buffer, zero the imaginary buffer,
apply the bit-reversal permutation, run the butterfly stages, and return
the first `size/2` magnitudes `sqrt(re² + im²)`. -/
noncomputable def transform (signal : ℕ → ℝ) (L : ℕ) : List ℝ :=
  let size := nextPow2 L
  let s0 : FftState := ⟨fun i => if i < L then signal i else 0, fun _ => 0⟩
  let s1 := bitRevPassGo (bitRevTable size) size 1 s0
  let s2 := butterflyStages size 2 s1
  (List.range (size / 2)).map fun i => Real.sqrt (s2.re i ^ 2 + s2.im i ^ 2)

/-- Both FFT buffers identically zero. -/
def ZeroState (s : FftState) : Prop := (∀ n, s.re n = 0) ∧ (∀ n, s.im n = 0)

/-- A valid configuration in the sense of the spec's data-model invariant:
`maxHz > minHz ≥ 0`, window a power of two `≥ 32`, hop in
`[1, windowSize]`. -/
def ConfigInvariant (c : Config) : Prop :=
  0 ≤ c.minHz ∧ c.minHz < c.maxHz ∧ (∃ k, c.windowSize = 2 ^ k) ∧
    32 ≤ c.windowSize ∧ 1 ≤ c.hopSize ∧ c.hopSize ≤ c.windowSize

/-- A small valid configuration used to exhibit concrete hop behaviour. -/
def cexConfig : Config :=
  { windowSize := 32, hopSize := 32, minHz := 0, maxHz := 4, smoothing := 3/5,
    pcdMinRms := 0, pcdThreshold := 0, pcdNormalize := 1, refA4 := 1 }

/-- A hop whose 16-bin spectrum has unit magnitude in bin 2 only
(sample rate 16, so `binHz = 1/2` and bins 1..8 are in range). -/
noncomputable def cexHop : HopInput :=
  ⟨1, fun k => if k = 2 then 1 else 0, 16⟩

/-! ## Definitions: the stream orchestrator
(src/unnamed/part_004, `AudioProcessor`) -/

structure TunerConfig where
  enabled : Bool
  minHz : ℚ
  maxHz : ℚ
  minProminence : ℚ
  minRMS : ℚ
  reactivity : ℚ

def DEFAULT_TUNER_CONFIG : TunerConfig :=
  { enabled := true, minHz := 70, maxHz := 1800, minProminence := 6,
    minRMS := 3/1000, reactivity := 7/20 }

/-- `hannWindow(size)[n] = 0.5 * (1 - cos(2π/(size-1) * n))`
(src/audio/windowing.js). -/
noncomputable def hannWindow (size : ℕ) (n : ℕ) : ℝ :=
  0.5 * (1 - Real.cos (2 * Real.pi / ((size : ℝ) - 1) * n))

/-- `frameRms(buffer) = sqrt(sum(sample²) / length)`. -/
noncomputable def frameRms (buf : ℕ → ℝ) (len : ℕ) : ℝ :=
  Real.sqrt ((∑ i ∈ Finset.range len, buf i ^ 2) / len)

/-- The converted primary-pitch record an accepted estimate produces. -/
structure PrimaryOut where
  freq : ℝ
  prominenceDb : ℝ
  cents : ℝ
  pitchClass : ℤ
  nearestMidi : ℤ
  midi : ℝ

/-- One `analysis` event's payload (the `magnitudes`/`audioTime` fields
carry no claim content and are omitted). -/
structure AnalysisEvent where
  pcd : Fin 12 → ℝ
  rawPcd : Fin 12 → ℝ
  rms : ℝ
  sampleRate : ℚ
  primary : Option PrimaryOut

/-- The `AudioProcessor`'s mutable state.  `events` records the `analysis`
events dispatched so far, oldest first; the stored `windowFn` and
`analysisBuffer` are derived state (always `hannWindow(config.windowSize)`
and a scratch buffer recomputed from the ring each hop) and are not
duplicated here. -/
structure Proc where
  config : Config
  tunerConfig : TunerConfig
  sampleRate : ℚ
  running : Bool
  ringBuffer : ℕ → ℝ
  writeIndex : ℕ
  filled : ℕ
  hopCounter : ℕ
  currentPcd : Fin 12 → ℝ
  rawPcd : Fin 12 → ℝ
  lastRms : ℝ
  events : List AnalysisEvent

/-- The windowed analysis frame: linearize the ring buffer starting at
the oldest sample (`start = writeIndex % windowSize`), multiplied in
place by the Hann window. -/
noncomputable def analysisBufferOf (p : Proc) : ℕ → ℝ := fun i =>
  p.ringBuffer ((p.writeIndex % p.config.windowSize + i) % p.config.windowSize) *
    hannWindow p.config.windowSize i

/-- The magnitude spectrum of the current frame as an indexed function
(out-of-range reads give 0; the pipeline only reads in-range bins). -/
noncomputable def magsOf (p : Proc) : ℤ → ℝ := fun k =>
  if 0 ≤ k then (transform (analysisBufferOf p) p.config.windowSize).getD k.toNat 0 else 0

/-- The conversion of an accepted estimate into the emitted record:
`midiReal = 69 + 12*log2(freq/refA4)`, `nearest = round(midiReal)`,
`cents = (midiReal - nearest) * 100`,
`pitchClass = ((nearest % 12) + 12) % 12`. -/
noncomputable def mkPrimary (refA4 : ℚ) (est : PrimaryResult) : PrimaryOut :=
  let midiReal : ℝ := 69 + 12 * Real.logb 2 (est.freq / (refA4 : ℚ))
  let nearest : ℤ := round midiReal
  { freq := est.freq, prominenceDb := est.prominenceDb,
    cents := (midiReal - (nearest : ℝ)) * 100,
    pitchClass := wrap12 nearest, nearestMidi := nearest, midi := midiReal }

/-- `AudioProcessor.processFrame`: window the frame, compute RMS and the
magnitude spectrum, gate the PCD on `pcdMinRms`, apply the EMA smoothing
unconditionally, optionally run the tuner's primary-pitch estimate, and
dispatch one `analysis` event. -/
noncomputable def processFrame (p : Proc) : Proc :=
  if p.running then
    let buf := analysisBufferOf p
    let rms := frameRms buf p.config.windowSize
    let len := (transform buf p.config.windowSize).length
    let raw : Fin 12 → ℝ := hopRaw p.config p.sampleRate ⟨rms, magsOf p, len⟩
    let pcd' := smoothStep p.config p.currentPcd raw
    let primary : Option PrimaryOut :=
      if p.tunerConfig.enabled ∧ (p.tunerConfig.minRMS : ℝ) ≤ rms then
        match estimatePrimary (magsOf p) len p.sampleRate p.tunerConfig.minHz
          p.tunerConfig.maxHz with
        | some est =>
          if (p.tunerConfig.minProminence : ℝ) ≤ est.prominenceDb then
            some (mkPrimary p.config.refA4 est)
          else none
        | none => none
      else none
    { p with
      lastRms := rms,
      rawPcd := raw,
      currentPcd := pcd',
      events := p.events ++ [⟨pcd', raw, rms, p.sampleRate, primary⟩] }
  else p

/-- One iteration of `handleAudioFrame`'s per-sample loop: write into the
ring, wrap the write index, saturate the fill counter, count the hop, and
when a full hop has accumulated on a full buffer, zero the hop counter and
process one frame. -/
noncomputable def pushSample (p : Proc) (x : ℝ) : Proc :=
  let p1 : Proc := { p with
    ringBuffer := Function.update p.ringBuffer p.writeIndex x,
    writeIndex := if p.config.windowSize ≤ p.writeIndex + 1 then 0 else p.writeIndex + 1,
    filled := if p.filled < p.config.windowSize then p.filled + 1 else p.filled,
    hopCounter := p.hopCounter + 1 }
  if p.config.hopSize ≤ p1.hopCounter ∧ p.config.windowSize ≤ p1.filled then
    processFrame { p1 with hopCounter := 0 }
  else p1

/-- `handleAudioFrame`: ignore the chunk unless running, else feed each
sample in order. -/
noncomputable def handleAudioFrame (p : Proc) (frame : List ℝ) : Proc :=
  if p.running then frame.foldl pushSample p else p

/-- `resetBuffers`: zero the counters, both sample buffers, both PCD
vectors and the last RMS (the configuration is untouched). -/
noncomputable def resetBuffers (p : Proc) : Proc :=
  { p with
    writeIndex := 0,
    filled := 0,
    hopCounter := 0,
    ringBuffer := fun _ => 0,
    currentPcd := fun _ => 0,
    rawPcd := fun _ => 0,
    lastRms := 0 }

/-- JavaScript `value | 0` (truncation toward zero; the 32-bit wrap of
out-of-range values is idealized away). -/
def jsTrunc (v : ℚ) : ℤ := if 0 ≤ v then ⌊v⌋ else ⌈v⌉

/-- `toPowerOfTwo`: clamp to `≥ 32`, round `log2` to the nearest integer,
return `1 << max(5, exponent)`. -/
noncomputable def toPowerOfTwo (value : ℚ) : ℕ :=
  2 ^ (max 5 (round (Real.logb 2 ((max 32 (jsTrunc value) : ℤ) : ℝ)))).toNat

/-- An `updateConfig` argument: a partial record; `none` is an absent
(`undefined`) field. -/
structure ConfigUpdates where
  windowSize : Option ℚ
  hopSize : Option ℚ
  minHz : Option ℚ
  maxHz : Option ℚ
  smoothing : Option ℚ
  pcdMinRms : Option ℚ
  pcdThreshold : Option ℚ
  pcdNormalize : Option ℚ
  refA4 : Option ℚ

/-- The `updates.windowSize` branch of `updateConfig`: acted on only when
present and truthy (non-zero) and different from the current value, and
only when the power-of-two rounding actually changes the window.  `some`
means the window changes (and buffers are reallocated/reset). -/
noncomputable def windowNew (o : Option ℚ) (w : ℕ) : Option ℕ :=
  match o with
  | none => none
  | some v =>
    if v ≠ 0 ∧ v ≠ (w : ℚ) then
      if toPowerOfTwo v ≠ w then some (toPowerOfTwo v) else none
    else none

/-- The `updates.hopSize` branch: `Math.max(1, hopSize | 0)` when present
and truthy. -/
def hopNew (o : Option ℚ) (hop : ℕ) : ℕ :=
  match o with
  | some v => if v ≠ 0 then (max 1 (jsTrunc v)).toNat else hop
  | none => hop

/-- The `updates.minHz` branch: `Math.max(0, minHz)` when present. -/
def minHzNew (o : Option ℚ) (m : ℚ) : ℚ :=
  match o with
  | some v => max 0 v
  | none => m

/-- The `updates.maxHz` branch: `Math.max(minHz + 1, maxHz)` against the
(already updated) `minHz` when present. -/
def maxHzNew (o : Option ℚ) (newMinHz m : ℚ) : ℚ :=
  match o with
  | some v => max (newMinHz + 1) v
  | none => m

/-- An optional clamped-to-at-least update (`Math.max(lo, v)`). -/
def atLeastNew (lo : ℚ) (o : Option ℚ) (cur : ℚ) : ℚ :=
  match o with
  | some v => max lo v
  | none => cur

/-- The `updates.smoothing` branch: `clamp(v, 0, 0.999)` when present. -/
def smoothingNew (o : Option ℚ) (s : ℚ) : ℚ :=
  match o with
  | some v => clampQ v 0 0.999
  | none => s

/-- `AudioProcessor.updateConfig`: merge-and-validate.  `windowSize` and
`hopSize` are only acted on when present and truthy (non-zero); a window
change rounds to a power of two, reallocates the sample buffers and
resets; frequency bounds and gates are clamped; finally the hop is
clamped to the window. -/
noncomputable def updateConfig (p : Proc) (u : ConfigUpdates) : Proc :=
  let c := p.config
  let winNew : Option ℕ := windowNew u.windowSize c.windowSize
  let minHz1 : ℚ := minHzNew u.minHz c.minHz
  let maxHz1 : ℚ := maxHzNew u.maxHz minHz1 c.maxHz
  let cfg1 : Config :=
    { windowSize := winNew.getD c.windowSize,
      hopSize := hopNew u.hopSize c.hopSize,
      minHz := minHz1,
      maxHz := if maxHz1 ≤ minHz1 then minHz1 + 1 else maxHz1,
      smoothing := smoothingNew u.smoothing c.smoothing,
      pcdMinRms := atLeastNew 0 u.pcdMinRms c.pcdMinRms,
      pcdThreshold := atLeastNew 0 u.pcdThreshold c.pcdThreshold,
      pcdNormalize := atLeastNew (1/10) u.pcdNormalize c.pcdNormalize,
      refA4 := atLeastNew 1 u.refA4 c.refA4 }
  let p1 : Proc :=
    { p with
      config := cfg1,
      ringBuffer := if winNew.isSome then (fun _ => 0) else p.ringBuffer }
  let p2 := if winNew.isSome then resetBuffers p1 else p1
  { p2 with config := { cfg1 with hopSize := min cfg1.hopSize cfg1.windowSize } }

/-- An `updateTuner` argument: a partial record. -/
structure TunerUpdates where
  enabled : Option Bool
  minHz : Option ℚ
  maxHz : Option ℚ
  minProminence : Option ℚ
  minRMS : Option ℚ
  reactivity : Option ℚ

/-- `AudioProcessor.updateTuner`: `Object.assign(this.tunerConfig,
updates)` — supplied fields overwrite, nothing is validated or clamped. -/
def updateTuner (t : TunerConfig) (u : TunerUpdates) : TunerConfig :=
  { enabled := u.enabled.getD t.enabled, minHz := u.minHz.getD t.minHz,
    maxHz := u.maxHz.getD t.maxHz,
    minProminence := u.minProminence.getD t.minProminence,
    minRMS := u.minRMS.getD t.minRMS,
    reactivity := u.reactivity.getD t.reactivity }

def procUpdateTuner (p : Proc) (u : TunerUpdates) : Proc :=
  { p with tunerConfig := updateTuner p.tunerConfig u }

/-- An updates record carrying only a window size. -/
def windowOnlyUpdate (v : ℚ) : ConfigUpdates :=
  ⟨some v, none, none, none, none, none, none, none, none⟩

/-- An updates record carrying only a reactivity. -/
def reactivityOnlyUpdate (x : ℚ) : TunerUpdates :=
  ⟨none, none, none, none, none, some x⟩

/-- The §8 scenario's configuration: window 16384, hop 4096. -/
def scenarioConfig : Config :=
  { DEFAULT_AUDIO_CONFIG with windowSize := 16384, hopSize := 4096 }

/-- A freshly started (reset) processor. -/
noncomputable def initialProc (cfg : Config) (t : TunerConfig) (sr : ℚ) : Proc :=
  { config := cfg, tunerConfig := t, sampleRate := sr, running := true,
    ringBuffer := fun _ => 0, writeIndex := 0, filled := 0, hopCounter := 0,
    currentPcd := fun _ => 0, rawPcd := fun _ => 0, lastRms := 0, events := [] }

/-- The §8 scenario's processor: running at 48 kHz, just reset. -/
noncomputable def scenarioProc : Proc :=
  initialProc scenarioConfig DEFAULT_TUNER_CONFIG 48000

/-- The silent-stream invariant: zero ring buffer and PCD state, and
every event dispatched so far carried zero PCDs and no primary result. -/
def SilentInv (p : Proc) : Prop :=
  p.ringBuffer = (fun _ => 0) ∧ p.currentPcd = (fun _ => 0) ∧
    p.rawPcd = (fun _ => 0) ∧
    ∀ e ∈ p.events, e.pcd = (fun _ => 0) ∧ e.rawPcd = (fun _ => 0) ∧ e.primary = none

end MobilePCD

namespace MobilePCD

/-! ## Theorems: arithmetic of the pitch-class wrap -/

theorem tmod12_bounds (m : ℤ) : -12 < m.tmod 12 ∧ m.tmod 12 < 12 := by
  cases m with
  | ofNat n =>
    have h : (Int.ofNat n).tmod 12 = Int.ofNat (n % 12) := rfl
    have : n % 12 < 12 := Nat.mod_lt _ (by norm_num)
    rw [h]; simp only [Int.ofNat_eq_natCast]; omega
  | negSucc n =>
    have h : (Int.negSucc n).tmod 12 = -Int.ofNat ((n + 1) % 12) := rfl
    have : (n + 1) % 12 < 12 := Nat.mod_lt _ (by norm_num)
    rw [h]; simp only [Int.ofNat_eq_natCast]; omega

theorem wrap12_eq_emod (m : ℤ) : wrap12 m = m.emod 12 := by
  obtain ⟨h1, h2⟩ := tmod12_bounds m
  have hd : m.tmod 12 = m - 12 * m.tdiv 12 := Int.tmod_def m 12
  have he : (m.tmod 12 + 12).tmod 12 = (m.tmod 12 + 12) % 12 :=
    Int.tmod_eq_emod (by omega) (by norm_num)
  have hg : (m.tmod 12 + 12) % 12 = m % 12 := by omega
  rw [wrap12, he, hg]
  rfl

theorem wrap12_nonneg (m : ℤ) : 0 ≤ wrap12 m := by
  rw [wrap12_eq_emod]; exact Int.emod_nonneg m (by norm_num)

theorem wrap12_lt (m : ℤ) : wrap12 m < 12 := by
  rw [wrap12_eq_emod]; exact Int.emod_lt_of_pos m (by norm_num)

/-! ## Theorems: basic properties of `compute` -/

theorem pcdCompute_apply (mags : ℤ → ℝ) (len : ℕ) (sampleRate : ℚ) (o : Config)
    (c : Fin 12) :
    pcdCompute mags len sampleRate o c =
      if 0 < ∑ c, pcdPowed mags len sampleRate o c then
        pcdPowed mags len sampleRate o c * (1 / ∑ c, pcdPowed mags len sampleRate o c)
      else pcdPowed mags len sampleRate o c := by
  unfold pcdCompute
  split <;> rfl

theorem pcdAccum_nonneg (mags : ℤ → ℝ) (len : ℕ) (sampleRate : ℚ) (o : Config)
    (c : Fin 12) : 0 ≤ pcdAccum mags len sampleRate o c := by
  refine Finset.sum_nonneg fun k _ => ?_
  split
  · positivity
  · exact le_refl 0

theorem pcdPowed_nonneg (mags : ℤ → ℝ) (len : ℕ) (sampleRate : ℚ) (o : Config)
    (c : Fin 12) : 0 ≤ pcdPowed mags len sampleRate o c := by
  unfold pcdPowed
  split
  · exact Real.rpow_nonneg (pcdAccum_nonneg mags len sampleRate o c) _
  · exact pcdAccum_nonneg mags len sampleRate o c

theorem pcdCompute_nonneg (mags : ℤ → ℝ) (len : ℕ) (sampleRate : ℚ) (o : Config)
    (c : Fin 12) : 0 ≤ pcdCompute mags len sampleRate o c := by
  rw [pcdCompute_apply]
  split
  · have h := pcdPowed_nonneg mags len sampleRate o c
    rename_i hs
    positivity
  · exact pcdPowed_nonneg mags len sampleRate o c

/-- When the post-normalization sum is not positive, every entry is zero
(the entries are non-negative and sum to at most zero). -/
theorem pcdPowed_eq_zero_of_sum_nonpos (mags : ℤ → ℝ) (len : ℕ) (sampleRate : ℚ)
    (o : Config) (hs : ¬ (0 : ℝ) < ∑ c, pcdPowed mags len sampleRate o c) (c : Fin 12) :
    pcdPowed mags len sampleRate o c = 0 := by
  have hz : ∑ c, pcdPowed mags len sampleRate o c = 0 :=
    le_antisymm (not_lt.mp hs)
      (Finset.sum_nonneg fun c _ => pcdPowed_nonneg mags len sampleRate o c)
  have := (Finset.sum_eq_zero_iff_of_nonneg
    (fun c _ => pcdPowed_nonneg mags len sampleRate o c)).mp hz
  exact this c (Finset.mem_univ c)

/-- Sum of `pcdCompute` over the 12 classes: exactly 1 when the
accumulated (power-normalized) energy is positive, 0 otherwise. -/
theorem pcdCompute_sum (mags : ℤ → ℝ) (len : ℕ) (sampleRate : ℚ) (o : Config) :
    ∑ c, pcdCompute mags len sampleRate o c =
      if 0 < ∑ c, pcdPowed mags len sampleRate o c then 1 else 0 := by
  by_cases hs : 0 < ∑ c, pcdPowed mags len sampleRate o c
  · rw [if_pos hs]
    have : ∀ c ∈ Finset.univ, pcdCompute mags len sampleRate o c =
        pcdPowed mags len sampleRate o c * (1 / ∑ c, pcdPowed mags len sampleRate o c) :=
      fun c _ => by rw [pcdCompute_apply, if_pos hs]
    rw [Finset.sum_congr rfl this, ← Finset.sum_mul]
    field_simp
  · rw [if_neg hs]
    refine Finset.sum_eq_zero fun c _ => ?_
    rw [pcdCompute_apply, if_neg hs]
    exact pcdPowed_eq_zero_of_sum_nonpos mags len sampleRate o hs c

/-- The total accumulated energy over the 12 classes is the thresholded
power sum over the bin range (each in-range bin contributes to exactly one
class). -/
theorem pcdAccum_total (mags : ℤ → ℝ) (len : ℕ) (sampleRate : ℚ) (o : Config) :
    ∑ c, pcdAccum mags len sampleRate o c =
      ∑ k ∈ Finset.Icc (minBinOf len sampleRate o.minHz) (maxBinOf len sampleRate o.maxHz),
        if (o.pcdThreshold : ℝ) < mags k then mags k ^ 2 else 0 := by
  unfold pcdAccum
  rw [Finset.sum_comm]
  refine Finset.sum_congr rfl fun k _ => ?_
  by_cases h : (o.pcdThreshold : ℝ) < mags k
  · simp only [h, true_and, if_pos h]
    rw [Finset.sum_ite_eq Finset.univ (lookupEntry len sampleRate o.refA4 k)
      (fun _ => mags k ^ 2)]
    simp
  · simp [h]

/-! ## Theorems: C2, `compute` refines the spec's definition -/

/-- **C2.** For every magnitude spectrum, sample rate and options,
`PitchClassComputer.compute` returns a 12-vector equal to the spec's
reference definition (`pcdComputeSpec`). -/
theorem compute_refines_spec (mags : ℤ → ℝ) (len : ℕ) (sampleRate : ℚ) (o : Config) :
    pcdCompute mags len sampleRate o = pcdComputeSpec mags len sampleRate o := by
  have hbin : sampleRate / (2 * (len : ℚ)) = binHzOf len sampleRate := by
    rw [binHzOf, mul_comm]
  have hacc : ∀ c : Fin 12,
      (∑ k ∈ Finset.Icc (max 1 ⌊o.minHz / (sampleRate / (2 * (len : ℚ)))⌋)
          (min ((len : ℤ) - 1) ⌊o.maxHz / (sampleRate / (2 * (len : ℚ)))⌋),
        if (o.pcdThreshold : ℝ) < mags k ∧ lookupEntry len sampleRate o.refA4 k = c then
          mags k ^ 2
        else 0) = pcdAccum mags len sampleRate o c := by
    intro c
    rw [pcdAccum, minBinOf, maxBinOf, hbin]
  have hvals : ∀ c : Fin 12,
      (if o.pcdNormalize ≠ 1 then
          (∑ k ∈ Finset.Icc (max 1 ⌊o.minHz / (sampleRate / (2 * (len : ℚ)))⌋)
            (min ((len : ℤ) - 1) ⌊o.maxHz / (sampleRate / (2 * (len : ℚ)))⌋),
            if (o.pcdThreshold : ℝ) < mags k ∧ lookupEntry len sampleRate o.refA4 k = c then
              mags k ^ 2
            else 0) ^ (o.pcdNormalize : ℝ)
        else
          ∑ k ∈ Finset.Icc (max 1 ⌊o.minHz / (sampleRate / (2 * (len : ℚ)))⌋)
            (min ((len : ℤ) - 1) ⌊o.maxHz / (sampleRate / (2 * (len : ℚ)))⌋),
            if (o.pcdThreshold : ℝ) < mags k ∧ lookupEntry len sampleRate o.refA4 k = c then
              mags k ^ 2
            else 0) = pcdPowed mags len sampleRate o c := by
    intro c
    rw [pcdPowed]
    by_cases h : o.pcdNormalize ≠ 1
    · rw [if_pos h, if_pos h, hacc c]
    · rw [if_neg h, if_neg h, hacc c]
  funext c
  rw [pcdCompute_apply]
  simp only [pcdComputeSpec, hvals]
  split
  · rename_i h
    rw [mul_one_div]
  · rename_i h
    rw [pcdPowed_eq_zero_of_sum_nonpos mags len sampleRate o h c]

/-! ## Theorems: C3, the lookup-table formula and its cache -/

/-- **C3.** For every spectrum length, sample rate and reference pitch
(all positive), the lookup table assigns to each bin `k > 0` the value
`round(69 + 12*log2((k * sample_rate / (2 * length)) / refPitch)) mod 12`
wrapped into `[0, 11]`; and `ensureLookup` leaves the state untouched when
the key `(length, sample rate, reference pitch)` matches the one the table
was last built for. -/
theorem lookup_formula_and_cache (len : ℕ) (sr a4 : ℚ) (k : ℤ) (s : PcState)
    (hlen : 0 < len) (hsr : 0 < sr) (ha4 : 0 < a4) (hk : 0 < k) :
    ((lookupEntry len sr a4 k).val : ℤ) =
      (round ((69 : ℝ) +
        12 * Real.logb 2 ((k : ℝ) * (sr : ℝ) / (2 * (len : ℝ)) / (a4 : ℝ)))).emod 12
    ∧ (s.lookupTable.isSome ∧ s.prevSampleRate = sr ∧ s.prevA4 = a4 ∧ s.prevLength = len →
        ensureLookup s len sr a4 = s) := by
  constructor
  · have hbin : 0 < binHzOf len sr := by
      rw [binHzOf]
      positivity
    have hfreq : 0 < (k : ℚ) * binHzOf len sr := by
      apply mul_pos _ hbin
      exact_mod_cast hk
    have hne1 : (((k : ℚ) * binHzOf len sr : ℚ) : ℝ) ≠ 0 := by
      exact_mod_cast ne_of_gt (show (0 : ℚ) < k * binHzOf len sr from hfreq)
    have hne2 : ((a4 : ℚ) : ℝ) ≠ 0 := by
      exact_mod_cast ne_of_gt ha4
    have harg : Real.logb 2 (((k : ℚ) * binHzOf len sr : ℚ) : ℝ) -
        Real.logb 2 ((a4 : ℚ) : ℝ) =
        Real.logb 2 ((k : ℝ) * (sr : ℝ) / (2 * (len : ℝ)) / (a4 : ℝ)) := by
      rw [← Real.logb_div hne1 hne2]
      congr 1
      push_cast [binHzOf]
      ring
    simp only [lookupEntry, if_pos hfreq]
    rw [Int.toNat_of_nonneg (wrap12_nonneg _), wrap12_eq_emod, harg]
  · intro h
    rw [ensureLookup, if_pos h]

/-- Instantiation of `lookup_formula_and_cache` at a concrete key and a
matching cache state (its hypotheses hold at `len = 8`, `sr = 2`,
`a4 = 1`, `k = 1`). -/
theorem lookup_formula_and_cache_witness :
    ensureLookup ⟨some (lookupEntry 8 2 1), 2, 1, 8⟩ 8 2 1 =
      ⟨some (lookupEntry 8 2 1), 2, 1, 8⟩ :=
  (lookup_formula_and_cache 8 2 1 1 ⟨some (lookupEntry 8 2 1), 2, 1, 8⟩ (by norm_num)
    (by norm_num) (by norm_num) (by norm_num)).2 ⟨rfl, rfl, rfl, rfl⟩

/-! ## Theorems: the per-hop gate and smoothing (C1, C4) -/

theorem clampQ_bounds (v : ℚ) : 0 ≤ clampQ v 0 0.999 ∧ clampQ v 0 0.999 ≤ 0.999 := by
  unfold clampQ
  exact ⟨le_min (by norm_num) (le_max_left _ _), min_le_left _ _⟩

theorem hopRaw_nonneg (cfg : Config) (sr : ℚ) (h : HopInput) (i : Fin 12) :
    0 ≤ hopRaw cfg sr h i := by
  unfold hopRaw
  split
  · exact pcdCompute_nonneg _ _ _ _ i
  · exact le_refl 0

theorem hopRaw_sum_le_one (cfg : Config) (sr : ℚ) (h : HopInput) :
    ∑ i, hopRaw cfg sr h i ≤ 1 := by
  unfold hopRaw
  split
  · rw [pcdCompute_sum]
    split <;> norm_num
  · simp

theorem smoothStep_invariant (cfg : Config) (s raw : Fin 12 → ℝ)
    (hs0 : ∀ i, 0 ≤ s i) (hs1 : ∑ i, s i ≤ 1)
    (hr0 : ∀ i, 0 ≤ raw i) (hr1 : ∑ i, raw i ≤ 1) :
    (∀ i, 0 ≤ smoothStep cfg s raw i) ∧ ∑ i, smoothStep cfg s raw i ≤ 1 := by
  obtain ⟨hσ0, hσ1⟩ := clampQ_bounds cfg.smoothing
  have hσ0' : (0 : ℝ) ≤ ((clampQ cfg.smoothing 0 0.999 : ℚ) : ℝ) := by exact_mod_cast hσ0
  have hσ1' : ((clampQ cfg.smoothing 0 0.999 : ℚ) : ℝ) ≤ 1 := by
    exact_mod_cast le_trans hσ1 (by norm_num)
  constructor
  · intro i
    simp only [smoothStep]
    have h1 := hs0 i
    have h2 := hr0 i
    nlinarith
  · simp only [smoothStep]
    rw [Finset.sum_add_distrib, ← Finset.mul_sum, ← Finset.mul_sum]
    have hsumS : 0 ≤ ∑ i, s i := Finset.sum_nonneg fun i _ => hs0 i
    have hsumR : 0 ≤ ∑ i, raw i := Finset.sum_nonneg fun i _ => hr0 i
    nlinarith

/-- **C1 (amended).** For every configuration and every sequence of
processed hops since the last reset, the smoothed PCD has 12 non-negative
components whose sum is at most 1, and it is all-zero whenever every hop
since the reset produced an all-zero raw PCD.  (The claim's "sums to 1
after an energetic hop" is refuted by `smoothed_pcd_sum_counterexample`:
one energetic hop leaves the sum at `1 - smoothing`.) -/
theorem smoothed_pcd_invariant (cfg : Config) (sr : ℚ) (hops : List HopInput) :
    (∀ i, 0 ≤ runHops cfg sr hops i) ∧ (∑ i, runHops cfg sr hops i ≤ 1) ∧
      ((∀ h ∈ hops, hopRaw cfg sr h = fun _ => 0) → runHops cfg sr hops = fun _ => 0) := by
  have main : ∀ (l : List HopInput) (s0 : Fin 12 → ℝ), (∀ i, 0 ≤ s0 i) → (∑ i, s0 i ≤ 1) →
      (∀ i, 0 ≤ l.foldl (fun s h => smoothStep cfg s (hopRaw cfg sr h)) s0 i) ∧
      (∑ i, l.foldl (fun s h => smoothStep cfg s (hopRaw cfg sr h)) s0 i ≤ 1) := by
    intro l
    induction l with
    | nil => exact fun s0 h0 h1 => ⟨h0, h1⟩
    | cons h t ih =>
      intro s0 h0 h1
      simp only [List.foldl_cons]
      obtain ⟨g0, g1⟩ := smoothStep_invariant cfg s0 (hopRaw cfg sr h) h0 h1
        (hopRaw_nonneg cfg sr h) (hopRaw_sum_le_one cfg sr h)
      exact ih _ g0 g1
  have hzero : ∀ l : List HopInput, (∀ h ∈ l, hopRaw cfg sr h = fun _ => 0) →
      l.foldl (fun s h => smoothStep cfg s (hopRaw cfg sr h)) (fun _ => 0) = fun _ => 0 := by
    intro l
    induction l with
    | nil => exact fun _ => rfl
    | cons h t ih =>
      intro hz
      simp only [List.foldl_cons]
      have h1 : hopRaw cfg sr h = fun _ => 0 := hz h (List.mem_cons_self h t)
      have h2 : smoothStep cfg (fun _ => 0) (hopRaw cfg sr h) = fun _ => 0 := by
        rw [h1]
        funext i
        simp [smoothStep]
      rw [h2]
      exact ih fun h' hm => hz h' (List.mem_cons_of_mem _ hm)
  have base0 : ∀ i : Fin 12, (0 : ℝ) ≤ (fun _ : Fin 12 => (0 : ℝ)) i := fun _ => le_refl 0
  have base1 : ∑ i : Fin 12, (fun _ : Fin 12 => (0 : ℝ)) i ≤ 1 := by simp
  exact ⟨(main hops _ base0 base1).1, (main hops _ base0 base1).2, hzero hops⟩

/-- **C1 counterexample.** With the (valid) configuration `cexConfig` and
a single hop of positive raw energy (raw PCD sums to exactly 1), the
smoothed PCD held afterwards sums to `2/5 = 1 - smoothing`, not 1: the
claim that the smoothed vector sums to 1 whenever some hop since the reset
had positive energy is false. -/
theorem smoothed_pcd_sum_counterexample :
    ConfigInvariant cexConfig ∧ (∑ i, hopRaw cexConfig 16 cexHop i) = 1 ∧
      (∑ i, runHops cexConfig 16 [cexHop] i) = 2/5 ∧ ((2 : ℝ)/5 ≠ 1) := by
  have hraw : (∑ i, hopRaw cexConfig 16 cexHop i) = 1 := by
    have hgate : ((cexConfig.pcdMinRms : ℚ) : ℝ) ≤ cexHop.rms := by
      norm_num [cexConfig, cexHop]
    have hpowed : ∀ c, pcdPowed cexHop.mags cexHop.len 16 cexConfig c =
        pcdAccum cexHop.mags cexHop.len 16 cexConfig c := by
      intro c
      rw [pcdPowed, if_neg]
      simp [cexConfig]
    have haccsum : ∑ c, pcdAccum cexHop.mags cexHop.len 16 cexConfig c = 1 := by
      rw [pcdAccum_total]
      have hmin : minBinOf cexHop.len 16 cexConfig.minHz = 1 := by
        norm_num [minBinOf, binHzOf, cexConfig, cexHop]
      have hmax : maxBinOf cexHop.len 16 cexConfig.maxHz = 8 := by
        norm_num [maxBinOf, binHzOf, cexConfig, cexHop]
      rw [hmin, hmax]
      have hsummand : ∀ k ∈ Finset.Icc (1 : ℤ) 8,
          (if (cexConfig.pcdThreshold : ℝ) < cexHop.mags k then cexHop.mags k ^ 2 else 0) =
            if k = 2 then (1 : ℝ) else 0 := by
        intro k _
        by_cases hk : k = 2
        · simp [hk, cexConfig, cexHop]
        · simp [hk, cexConfig, cexHop]
      rw [Finset.sum_congr rfl hsummand,
        Finset.sum_ite_eq' (Finset.Icc (1 : ℤ) 8) 2 (fun _ => (1 : ℝ))]
      norm_num
    have hpsum : ∑ c, pcdPowed cexHop.mags cexHop.len 16 cexConfig c = 1 := by
      rw [Finset.sum_congr rfl fun c _ => hpowed c, haccsum]
    rw [hopRaw, if_pos hgate, pcdCompute_sum, hpsum]
    norm_num
  refine ⟨⟨by norm_num [cexConfig], by norm_num [cexConfig], ⟨5, rfl⟩,
    by norm_num [cexConfig], by norm_num [cexConfig], by norm_num [cexConfig]⟩,
    hraw, ?_, by norm_num⟩
  have hσ : clampQ cexConfig.smoothing 0 0.999 = 3/5 := by
    norm_num [clampQ, cexConfig]
  simp only [runHops, List.foldl_cons, List.foldl_nil, smoothStep, hσ]
  simp only [mul_zero, zero_add]
  rw [← Finset.mul_sum, hraw]
  norm_num

/-- **C4.** On every processed hop, each smoothed component is updated as
`smoothed[i] = smoothing*smoothed[i] + (1-smoothing)*raw[i]`,
unconditionally; and on a gated hop (RMS strictly below the PCD gate) the
raw PCD is all-zero and every smoothed component decays by the factor
`1 - smoothing` (loses that fraction of its value).  Stated for
configurations whose smoothing already lies in the clamp range
`[0, 0.999]`, where `clamp` is the identity. -/
theorem smoothing_update_unconditional (cfg : Config) (sr : ℚ) (h : HopInput)
    (s : Fin 12 → ℝ) (hσ0 : 0 ≤ cfg.smoothing) (hσ1 : cfg.smoothing ≤ 0.999) :
    (∀ i, smoothStep cfg s (hopRaw cfg sr h) i =
      (cfg.smoothing : ℝ) * s i + (1 - (cfg.smoothing : ℝ)) * hopRaw cfg sr h i) ∧
    (h.rms < (cfg.pcdMinRms : ℝ) →
      hopRaw cfg sr h = (fun _ => 0) ∧
      ∀ i, smoothStep cfg s (hopRaw cfg sr h) i =
        s i - (1 - (cfg.smoothing : ℝ)) * s i) := by
  have hclamp : clampQ cfg.smoothing 0 0.999 = cfg.smoothing := by
    rw [clampQ, max_eq_right hσ0, min_eq_right hσ1]
  constructor
  · intro i
    simp only [smoothStep, hclamp]
  · intro hgate
    have hz : hopRaw cfg sr h = fun _ => 0 := by
      rw [hopRaw, if_neg (not_le.mpr hgate)]
    refine ⟨hz, fun i => ?_⟩
    simp only [smoothStep, hclamp, hz]
    ring

/-- Instantiation of `smoothing_update_unconditional` at a concrete
gated hop (RMS `-1` is below the gate `0` of `cexConfig`, whose smoothing
`3/5` lies in `[0, 0.999]`). -/
theorem smoothing_update_unconditional_witness :
    hopRaw cexConfig 16 ⟨-1, fun _ => 0, 16⟩ = (fun _ => 0) :=
  ((smoothing_update_unconditional cexConfig 16 ⟨-1, fun _ => 0, 16⟩ (fun _ => 0)
    (by norm_num [cexConfig]) (by norm_num [cexConfig])).2 (by norm_num [cexConfig])).1

/-! ## Theorems: C5, the primary pitch estimator's none condition -/

/-- The running maximum computed by `maxLoop` is below a bound iff the
seed and every magnitude in the remaining range are. -/
theorem maxLoop_fst_lt (mags : ℤ → ℝ) (kMax : ℤ) (c : ℝ) (i : ℤ) (v : ℝ) (k : ℤ) :
    (maxLoop mags kMax i v k).1 < c ↔
      v < c ∧ ∀ j ∈ Finset.Icc i kMax, mags j < c := by
  induction i, v, k using maxLoop.induct mags kMax with
  | case1 i v k hle hvlt ih =>
    rw [maxLoop, if_pos hle, if_pos hvlt]
    rw [ih]
    simp only [Finset.mem_Icc]
    constructor
    · rintro ⟨h1, h2⟩
      refine ⟨lt_trans hvlt h1, fun j hj => ?_⟩
      by_cases hji : j = i
      · subst hji
        exact h1
      · exact h2 j ⟨by omega, hj.2⟩
    · rintro ⟨h1, h2⟩
      exact ⟨h2 i ⟨le_refl i, hle⟩, fun j hj => h2 j ⟨by omega, hj.2⟩⟩
  | case2 i v k hle hvge ih =>
    rw [maxLoop, if_pos hle, if_neg hvge]
    rw [ih]
    simp only [Finset.mem_Icc]
    constructor
    · rintro ⟨h1, h2⟩
      refine ⟨h1, fun j hj => ?_⟩
      by_cases hji : j = i
      · subst hji
        exact lt_of_le_of_lt (not_lt.mp hvge) h1
      · exact h2 j ⟨by omega, hj.2⟩
    · rintro ⟨h1, h2⟩
      exact ⟨h1, fun j hj => h2 j ⟨by omega, hj.2⟩⟩
  | case3 i v k hgt =>
    rw [maxLoop, if_neg hgt]
    have : Finset.Icc i kMax = ∅ := Finset.Icc_eq_empty hgt
    simp [this]

/-- **C5.** For every magnitude spectrum, sample rate, `minHz` and
`maxHz`, `estimatePrimary` returns `none` iff every magnitude in the
clamped search range
`[max(2, floor(minHz/binHz)), min(len-3, floor(maxHz/binHz))]` is below
the fixed absolute floor `1e-6` (so in particular `none`, not an error,
when the clamped range is empty); otherwise it returns a record. -/
theorem estimatePrimary_none_iff (mags : ℤ → ℝ) (len : ℕ) (sampleRate minHz maxHz : ℚ) :
    estimatePrimary mags len sampleRate minHz maxHz = none ↔
      ∀ i ∈ Finset.Icc (max 2 ⌊minHz / binHzOf len sampleRate⌋)
        (min ((len : ℤ) - 3) ⌊maxHz / binHzOf len sampleRate⌋), mags i < 1e-6 := by
  set kMin : ℤ := max 2 ⌊minHz / binHzOf len sampleRate⌋ with hkMin
  set kMax : ℤ := min ((len : ℤ) - 3) ⌊maxHz / binHzOf len sampleRate⌋ with hkMax
  by_cases hm : (maxLoop mags kMax kMin 0 kMin).1 < 1e-6
  · have hall := (maxLoop_fst_lt mags kMax 1e-6 kMin 0 kMin).mp hm
    simp only [estimatePrimary, ← hkMin, ← hkMax, if_pos hm]
    simpa using hall.2
  · have hnall : ¬ ∀ i ∈ Finset.Icc kMin kMax, mags i < 1e-6 := fun hall =>
      hm ((maxLoop_fst_lt mags kMax 1e-6 kMin 0 kMin).mpr ⟨by norm_num, hall⟩)
    simp only [estimatePrimary, ← hkMin, ← hkMax, if_neg hm]
    simpa using hnall

/-! ## Theorems: C6, the FFT engine -/

/-- Invariant of the `while (size < L) size <<= 1` loop: starting from a
power of two whose half (if any) is below `L`, it returns the least power
of two that is at least `L`. -/
theorem nextPow2Go_spec (L : ℕ) :
    ∀ (n a : ℕ), n = L - 2 ^ a → (a = 0 ∨ 2 ^ (a - 1) < L) →
      ∃ k, nextPow2Go L (2 ^ a) = 2 ^ k ∧ L ≤ 2 ^ k ∧ (k = 0 ∨ 2 ^ (k - 1) < L) := by
  intro n
  induction n using Nat.strong_induction_on with
  | _ n ih =>
    intro a hn ha
    by_cases h : 2 ^ a < L
    · have hpos : 0 < 2 ^ a := Nat.pos_pow_of_pos a (by norm_num)
      have hstep : nextPow2Go L (2 ^ a) = nextPow2Go L (2 ^ (a + 1)) := by
        rw [nextPow2Go, dif_pos ⟨hpos, h⟩]
        congr 1
        ring
      rw [hstep]
      have hgrow : 2 ^ a < 2 ^ (a + 1) := by
        have : 2 ^ (a + 1) = 2 * 2 ^ a := by ring
        omega
      refine ih (L - 2 ^ (a + 1)) (by omega) (a + 1) rfl (Or.inr (by simpa using h))
    · refine ⟨a, ?_, not_lt.mp h, ha⟩
      rw [nextPow2Go, dif_neg fun hc => h hc.2]

/-- `nextPow2 L` is the least power of two `≥ L` (for positive `L`). -/
theorem nextPow2_spec (L : ℕ) (hL : 0 < L) :
    ∃ k, nextPow2 L = 2 ^ k ∧ L ≤ 2 ^ k ∧ ∀ m, L ≤ 2 ^ m → 2 ^ k ≤ 2 ^ m := by
  obtain ⟨k, h1, h2, h3⟩ := nextPow2Go_spec L (L - 2 ^ 0) 0 rfl (Or.inl rfl)
  have h1' : nextPow2 L = 2 ^ k := by
    rw [nextPow2]
    rw [show (1 : ℕ) = 2 ^ 0 from rfl]
    exact h1
  refine ⟨k, h1', h2, fun m hm => ?_⟩
  rcases h3 with h3 | h3
  · subst h3
    exact Nat.one_le_two_pow
  · have hlt : 2 ^ (k - 1) < 2 ^ m := lt_of_lt_of_le h3 hm
    have hkm : k - 1 < m := by
      by_contra hcon
      push_neg at hcon
      exact absurd (Nat.pow_le_pow_right (by norm_num) hcon) (not_le.mpr hlt)
    exact Nat.pow_le_pow_right (by norm_num) (by omega)

theorem swapAt_zero (s : FftState) (i j : ℕ) (h : ZeroState s) :
    ZeroState (swapAt s i j) := by
  obtain ⟨hre, him⟩ := h
  refine ⟨fun n => ?_, fun n => ?_⟩ <;>
    simp [swapAt, Function.update_apply, hre, him]

theorem bitRevPassGo_zero (table : ℕ → ℕ) (size : ℕ) :
    ∀ (i : ℕ) (s : FftState), ZeroState s → ZeroState (bitRevPassGo table size i s) := by
  intro i s hs
  induction i, s using bitRevPassGo.induct table size with
  | case1 i s hlt ih =>
    rw [bitRevPassGo, dif_pos hlt]
    apply ih
    split
    · exact swapAt_zero s i (table i) hs
    · exact hs
  | case2 i s hge =>
    rw [bitRevPassGo, dif_neg hge]
    exact hs

theorem butterflyK_zero (i halfLen : ℕ) (wlenRe wlenIm : ℝ) :
    ∀ (k : ℕ) (wRe wIm : ℝ) (s : FftState), ZeroState s →
      ZeroState (butterflyK i halfLen wlenRe wlenIm k wRe wIm s) := by
  intro k wRe wIm s hs
  induction k, wRe, wIm, s using butterflyK.induct i halfLen wlenRe wlenIm with
  | case1 k wRe wIm s hlt uRe uIm vRe vIm s' ih =>
    rw [butterflyK, dif_pos hlt]
    apply ih
    obtain ⟨hre, him⟩ := hs
    refine ⟨fun n => ?_, fun n => ?_⟩ <;>
      simp [s', uRe, uIm, vRe, vIm, Function.update_apply, hre, him]
  | case2 k wRe wIm s hge =>
    rw [butterflyK, dif_neg hge]
    exact hs

theorem butterflyBlocks_zero (size len : ℕ) (wlenRe wlenIm : ℝ) :
    ∀ (i : ℕ) (s : FftState), ZeroState s →
      ZeroState (butterflyBlocks size len wlenRe wlenIm i s) := by
  intro i s hs
  induction i, s using butterflyBlocks.induct size len wlenRe wlenIm with
  | case1 i s hcond ih =>
    rw [butterflyBlocks, dif_pos hcond]
    exact ih (butterflyK_zero i (len / 2) wlenRe wlenIm 0 1 0 s hs)
  | case2 i s hcond =>
    rw [butterflyBlocks, dif_neg hcond]
    exact hs

theorem butterflyStages_zero (size : ℕ) :
    ∀ (len : ℕ) (s : FftState), ZeroState s → ZeroState (butterflyStages size len s) := by
  intro len s hs
  induction len, s using butterflyStages.induct size with
  | case1 len s hcond ih =>
    rw [butterflyStages, dif_pos hcond]
    exact ih (butterflyBlocks_zero size len _ _ 0 s hs)
  | case2 len s hcond =>
    rw [butterflyStages, dif_neg hcond]
    exact hs

/-- **C6.** For every input frame of positive length `L`,
`RealFFT.transform` returns a magnitude buffer of length `N/2` where `N`
(`nextPow2 L`) is the smallest power of two with `N ≥ L`; and transforming
an all-zero frame yields an all-zero magnitude buffer. -/
theorem transform_length_and_zero (signal : ℕ → ℝ) (L : ℕ) (hL : 0 < L) :
    (∃ k, nextPow2 L = 2 ^ k) ∧ L ≤ nextPow2 L ∧
      (∀ m, L ≤ 2 ^ m → nextPow2 L ≤ 2 ^ m) ∧
      (transform signal L).length = nextPow2 L / 2 ∧
      ((∀ i, i < L → signal i = 0) → ∀ x ∈ transform signal L, x = 0) := by
  obtain ⟨k, h1, h2, h3⟩ := nextPow2_spec L hL
  refine ⟨⟨k, h1⟩, h1 ▸ h2, fun m hm => h1 ▸ h3 m hm, by simp [transform], ?_⟩
  intro hz x hx
  have h0 : ZeroState ⟨fun i => if i < L then signal i else 0, fun _ => 0⟩ := by
    refine ⟨fun n => ?_, fun n => rfl⟩
    by_cases hn : n < L
    · simp [hn, hz n hn]
    · simp [hn]
  have h1 := bitRevPassGo_zero (bitRevTable (nextPow2 L)) (nextPow2 L) 1 _ h0
  have h2 := butterflyStages_zero (nextPow2 L) 2 _ h1
  simp only [transform, List.mem_map, List.mem_range] at hx
  obtain ⟨i, _, rfl⟩ := hx
  rw [h2.1 i, h2.2 i]
  simp

/-- Instantiation of `transform_length_and_zero` at a concrete positive
frame length. -/
theorem transform_length_and_zero_witness :
    (transform (fun _ => 0) 4).length = nextPow2 4 / 2 :=
  (transform_length_and_zero (fun _ => 0) 4 (by norm_num)).2.2.2.1

/-! ## Theorems: C7, per-hop event emission -/

theorem succ_mod (m h : ℕ) (hh : 0 < h) :
    (m + 1) % h = if m % h + 1 = h then 0 else m % h + 1 := by
  have hd := Nat.div_add_mod m h
  have hr : m % h < h := Nat.mod_lt m hh
  by_cases hcase : m % h + 1 = h
  · rw [if_pos hcase]
    have hdist : h * (m / h + 1) = h * (m / h) + h := by ring
    have hm1 : m + 1 = h * (m / h + 1) := by omega
    rw [hm1, Nat.mul_mod_right]
  · rw [if_neg hcase]
    have hm1 : m + 1 = (m % h + 1) + h * (m / h) := by omega
    rw [hm1, Nat.add_mul_mod_self_left, Nat.mod_eq_of_lt (by omega)]

theorem succ_div (m h : ℕ) (hh : 0 < h) :
    (m + 1) / h = if m % h + 1 = h then m / h + 1 else m / h := by
  have hd := Nat.div_add_mod m h
  have hr : m % h < h := Nat.mod_lt m hh
  by_cases hcase : m % h + 1 = h
  · rw [if_pos hcase]
    have hdist : h * (m / h + 1) = h * (m / h) + h := by ring
    have hm1 : m + 1 = h * (m / h + 1) := by omega
    rw [hm1, Nat.mul_div_cancel_left _ hh]
  · rw [if_neg hcase]
    have hm1 : m + 1 = (m % h + 1) + h * (m / h) := by omega
    rw [hm1, Nat.add_mul_div_left _ _ hh, Nat.div_eq_of_lt (by omega), Nat.zero_add]

theorem processFrame_preserves (q : Proc) :
    (processFrame q).config = q.config ∧ (processFrame q).running = q.running ∧
    (processFrame q).sampleRate = q.sampleRate ∧
    (processFrame q).tunerConfig = q.tunerConfig ∧
    (processFrame q).writeIndex = q.writeIndex ∧ (processFrame q).filled = q.filled ∧
    (processFrame q).hopCounter = q.hopCounter ∧
    (processFrame q).ringBuffer = q.ringBuffer := by
  simp only [processFrame]
  split <;> simp

theorem processFrame_events_length (q : Proc) (h : q.running = true) :
    (processFrame q).events.length = q.events.length + 1 := by
  simp [processFrame, h]

theorem pushSample_fired (p : Proc) (x : ℝ) (hrun : p.running = true)
    (hcond : p.config.hopSize ≤ p.hopCounter + 1 ∧
      p.config.windowSize ≤ (if p.filled < p.config.windowSize then p.filled + 1
        else p.filled)) :
    (pushSample p x).config = p.config ∧ (pushSample p x).running = true ∧
    (pushSample p x).sampleRate = p.sampleRate ∧
    (pushSample p x).tunerConfig = p.tunerConfig ∧
    (pushSample p x).filled =
      (if p.filled < p.config.windowSize then p.filled + 1 else p.filled) ∧
    (pushSample p x).hopCounter = 0 ∧
    (pushSample p x).events.length = p.events.length + 1 := by
  simp only [pushSample]
  rw [if_pos hcond]
  obtain ⟨h1, h2, h3, h4, h5, h6, h7, h8⟩ := processFrame_preserves
    { p with
      ringBuffer := Function.update p.ringBuffer p.writeIndex x,
      writeIndex := if p.config.windowSize ≤ p.writeIndex + 1 then 0 else p.writeIndex + 1,
      filled := if p.filled < p.config.windowSize then p.filled + 1 else p.filled,
      hopCounter := 0 }
  have hrunq : ({ p with
      ringBuffer := Function.update p.ringBuffer p.writeIndex x,
      writeIndex := if p.config.windowSize ≤ p.writeIndex + 1 then 0 else p.writeIndex + 1,
      filled := if p.filled < p.config.windowSize then p.filled + 1 else p.filled,
      hopCounter := 0 } : Proc).running = true := hrun
  refine ⟨h1, ?_, h3, h4, h6, h7, ?_⟩
  · rw [h2]
    exact hrun
  · rw [processFrame_events_length _ hrunq]

theorem pushSample_quiet (p : Proc) (x : ℝ)
    (hcond : ¬ (p.config.hopSize ≤ p.hopCounter + 1 ∧
      p.config.windowSize ≤ (if p.filled < p.config.windowSize then p.filled + 1
        else p.filled))) :
    (pushSample p x).config = p.config ∧ (pushSample p x).running = p.running ∧
    (pushSample p x).sampleRate = p.sampleRate ∧
    (pushSample p x).tunerConfig = p.tunerConfig ∧
    (pushSample p x).filled =
      (if p.filled < p.config.windowSize then p.filled + 1 else p.filled) ∧
    (pushSample p x).hopCounter = p.hopCounter + 1 ∧
    (pushSample p x).events.length = p.events.length := by
  simp only [pushSample]
  rw [if_neg hcond]
  exact ⟨rfl, rfl, rfl, rfl, rfl, rfl, rfl⟩

theorem pushSample_preserves (p : Proc) (x : ℝ) :
    (pushSample p x).config = p.config ∧ (pushSample p x).running = p.running ∧
    (pushSample p x).sampleRate = p.sampleRate ∧
    (pushSample p x).tunerConfig = p.tunerConfig := by
  by_cases hcond : p.config.hopSize ≤ p.hopCounter + 1 ∧
      p.config.windowSize ≤ (if p.filled < p.config.windowSize then p.filled + 1
        else p.filled)
  · simp only [pushSample]
    rw [if_pos hcond]
    obtain ⟨h1, h2, h3, h4, _⟩ := processFrame_preserves
      { p with
        ringBuffer := Function.update p.ringBuffer p.writeIndex x,
        writeIndex := if p.config.windowSize ≤ p.writeIndex + 1 then 0
          else p.writeIndex + 1,
        filled := if p.filled < p.config.windowSize then p.filled + 1 else p.filled,
        hopCounter := 0 }
    exact ⟨h1, h2, h3, h4⟩
  · simp only [pushSample]
    rw [if_neg hcond]
    exact ⟨rfl, rfl, rfl, rfl⟩

/-- Running the per-sample loop from a freshly reset running state: the
fill counter saturates at the window, the hop counter and the number of
dispatched analysis events follow the closed forms. -/
theorem feed_stats (p : Proc) (hrun : p.running = true) (hW : 0 < p.config.windowSize)
    (hh : 0 < p.config.hopSize) (hhW : p.config.hopSize ≤ p.config.windowSize)
    (hf : p.filled = 0) (hc : p.hopCounter = 0) (he : p.events = []) (xs : List ℝ) :
    (xs.foldl pushSample p).config = p.config ∧
    (xs.foldl pushSample p).running = true ∧
    (xs.foldl pushSample p).filled = min xs.length p.config.windowSize ∧
    (xs.foldl pushSample p).hopCounter =
      (if xs.length < p.config.windowSize then xs.length
       else (xs.length - p.config.windowSize) % p.config.hopSize) ∧
    (xs.foldl pushSample p).events.length =
      (if xs.length < p.config.windowSize then 0
       else (xs.length - p.config.windowSize) / p.config.hopSize + 1) := by
  induction xs using List.reverseRecOn with
  | nil =>
    refine ⟨rfl, hrun, ?_, ?_, ?_⟩
    · simp [hf]
    · simp [hc, hW]
    · simp [he, hW]
  | append_singleton xs x ih =>
    obtain ⟨icfg, irun, ifill, ihc, iev⟩ := ih
    rw [List.foldl_append, List.foldl_cons, List.foldl_nil] at *
    set q := xs.foldl pushSample p with hq
    set n := xs.length with hn
    have hlen : (xs ++ [x]).length = n + 1 := by simp [hn]
    rw [hlen]
    -- the fired/quiet condition, phrased over q's own fields
    rcases Nat.lt_trichotomy (n + 1) p.config.windowSize with h1 | h1 | h1
    · -- still filling: no event can fire
      have hnW : n < p.config.windowSize := by omega
      have hfill' : (if q.filled < q.config.windowSize then q.filled + 1 else q.filled) =
          n + 1 := by
        rw [icfg, ifill]
        rw [if_pos (by omega : min n p.config.windowSize < p.config.windowSize)]
        omega
      have hcond : ¬ (q.config.hopSize ≤ q.hopCounter + 1 ∧
          q.config.windowSize ≤ (if q.filled < q.config.windowSize then q.filled + 1
            else q.filled)) := by
        rw [hfill', icfg]
        rintro ⟨-, hle⟩
        omega
      obtain ⟨j1, j2, j3, j4, j5, j6, j7⟩ := pushSample_quiet q x hcond
      refine ⟨j1.trans icfg, j2.trans irun, ?_, ?_, ?_⟩
      · rw [j5, hfill']
        omega
      · rw [j6, ihc, if_pos hnW, if_pos h1]
      · rw [j7, iev, if_pos hnW, if_pos h1]
    · -- the buffer fills exactly now: the first event fires
      have hnW : n < p.config.windowSize := by omega
      have hfill' : (if q.filled < q.config.windowSize then q.filled + 1 else q.filled) =
          p.config.windowSize := by
        rw [icfg, ifill]
        rw [if_pos (by omega : min n p.config.windowSize < p.config.windowSize)]
        omega
      have hcond : q.config.hopSize ≤ q.hopCounter + 1 ∧
          q.config.windowSize ≤ (if q.filled < q.config.windowSize then q.filled + 1
            else q.filled) := by
        rw [hfill', icfg, ihc, if_pos hnW]
        omega
      obtain ⟨j1, j2, j3, j4, j5, j6, j7⟩ := pushSample_fired q x irun hcond
      refine ⟨j1.trans icfg, j2, ?_, ?_, ?_⟩
      · rw [j5, hfill']
        omega
      · rw [j6, if_neg (by omega : ¬ n + 1 < p.config.windowSize),
          show n + 1 - p.config.windowSize = 0 by omega, Nat.zero_mod]
      · rw [j7, iev, if_pos hnW, if_neg (by omega : ¬ n + 1 < p.config.windowSize),
          show n + 1 - p.config.windowSize = 0 by omega, Nat.zero_div]
    · -- steady state: one event per hopSize samples
      have hWn : p.config.windowSize ≤ n := by omega
      have hnW : ¬ n < p.config.windowSize := by omega
      set m := n - p.config.windowSize with hm
      have hr : m % p.config.hopSize < p.config.hopSize := Nat.mod_lt m hh
      have hfill' : (if q.filled < q.config.windowSize then q.filled + 1 else q.filled) =
          p.config.windowSize := by
        rw [icfg, ifill]
        rw [if_neg (by omega : ¬ min n p.config.windowSize < p.config.windowSize)]
        omega
      have hsub : n + 1 - p.config.windowSize = m + 1 := by omega
      by_cases hfire : m % p.config.hopSize + 1 = p.config.hopSize
      · have hcond : q.config.hopSize ≤ q.hopCounter + 1 ∧
            q.config.windowSize ≤ (if q.filled < q.config.windowSize then q.filled + 1
              else q.filled) := by
          rw [hfill', icfg, ihc, if_neg hnW]
          omega
        obtain ⟨j1, j2, j3, j4, j5, j6, j7⟩ := pushSample_fired q x irun hcond
        refine ⟨j1.trans icfg, j2, ?_, ?_, ?_⟩
        · rw [j5, hfill']
          omega
        · rw [j6, if_neg (by omega : ¬ n + 1 < p.config.windowSize), hsub,
            succ_mod m p.config.hopSize hh, if_pos hfire]
        · rw [j7, iev, if_neg hnW, if_neg (by omega : ¬ n + 1 < p.config.windowSize), hsub,
            succ_div m p.config.hopSize hh, if_pos hfire]
      · have hcond : ¬ (q.config.hopSize ≤ q.hopCounter + 1 ∧
            q.config.windowSize ≤ (if q.filled < q.config.windowSize then q.filled + 1
              else q.filled)) := by
          rw [hfill', icfg, ihc, if_neg hnW]
          rintro ⟨hle, -⟩
          omega
        obtain ⟨j1, j2, j3, j4, j5, j6, j7⟩ := pushSample_quiet q x hcond
        refine ⟨j1.trans icfg, j2.trans irun, ?_, ?_, ?_⟩
        · rw [j5, hfill']
          omega
        · rw [j6, ihc, if_neg hnW, if_neg (by omega : ¬ n + 1 < p.config.windowSize), hsub,
            succ_mod m p.config.hopSize hh, if_neg hfire]
        · rw [j7, iev, if_neg hnW, if_neg (by omega : ¬ n + 1 < p.config.windowSize), hsub,
            succ_div m p.config.hopSize hh, if_neg hfire]

theorem processFrame_silent (q : Proc) (hrun : q.running = true)
    (hg1 : 0 < q.config.pcdMinRms) (hg2 : 0 < q.tunerConfig.minRMS)
    (hinv : SilentInv q) : SilentInv (processFrame q) := by
  obtain ⟨hring, hcur, hraw, hev⟩ := hinv
  have hbuf : analysisBufferOf q = fun _ => 0 := by
    funext i
    rw [analysisBufferOf, hring]
    simp
  have hrms : frameRms (analysisBufferOf q) q.config.windowSize = 0 := by
    rw [hbuf]
    simp [frameRms]
  have hgate : ¬ ((q.config.pcdMinRms : ℚ) : ℝ) ≤
      frameRms (analysisBufferOf q) q.config.windowSize := by
    rw [hrms]
    push_neg
    exact_mod_cast hg1
  have hraw0 : hopRaw q.config q.sampleRate
      ⟨frameRms (analysisBufferOf q) q.config.windowSize, magsOf q,
        (transform (analysisBufferOf q) q.config.windowSize).length⟩ = fun _ => 0 := by
    rw [hopRaw]
    exact if_neg hgate
  have hsm : smoothStep q.config q.currentPcd (fun _ => 0) = fun _ => 0 := by
    rw [hcur]
    funext i
    simp [smoothStep]
  have htuner : ¬ (q.tunerConfig.enabled = true ∧ ((q.tunerConfig.minRMS : ℚ) : ℝ) ≤
      frameRms (analysisBufferOf q) q.config.windowSize) := by
    rintro ⟨-, hle⟩
    rw [hrms] at hle
    have hpos : (0 : ℝ) < ((q.tunerConfig.minRMS : ℚ) : ℝ) := by exact_mod_cast hg2
    linarith
  simp only [processFrame, if_pos hrun, hraw0, hsm]
  refine ⟨hring, rfl, rfl, ?_⟩
  intro e he'
  rw [List.mem_append] at he'
  rcases he' with he' | he'
  · exact hev e he'
  · rw [List.mem_singleton] at he'
    subst he'
    refine ⟨rfl, rfl, ?_⟩
    simp only [if_neg htuner]

theorem pushSample_silent (p : Proc) (hrun : p.running = true)
    (hg1 : 0 < p.config.pcdMinRms) (hg2 : 0 < p.tunerConfig.minRMS)
    (hinv : SilentInv p) : SilentInv (pushSample p 0) := by
  obtain ⟨hring, hcur, hraw, hev⟩ := hinv
  have hring1 : Function.update p.ringBuffer p.writeIndex (0 : ℝ) = fun _ => 0 := by
    rw [hring]
    funext n
    simp [Function.update_apply]
  have hinv1 : ∀ wi fi hc, SilentInv
      { p with
        ringBuffer := Function.update p.ringBuffer p.writeIndex (0 : ℝ),
        writeIndex := wi, filled := fi, hopCounter := hc } :=
    fun wi fi hc => ⟨hring1, hcur, hraw, hev⟩
  by_cases hcond : p.config.hopSize ≤ p.hopCounter + 1 ∧
      p.config.windowSize ≤ (if p.filled < p.config.windowSize then p.filled + 1
        else p.filled)
  · simp only [pushSample]
    rw [if_pos hcond]
    exact processFrame_silent _ hrun hg1 hg2 (hinv1 _ _ _)
  · simp only [pushSample]
    rw [if_neg hcond]
    exact hinv1 _ _ _

/-- Feeding silence preserves the silent-stream invariant (every event
dispatched along the way has zero PCDs and no primary result). -/
theorem silent_feed (n : ℕ) : ∀ (p : Proc), p.running = true →
    0 < p.config.pcdMinRms → 0 < p.tunerConfig.minRMS → SilentInv p →
    SilentInv ((List.replicate n (0 : ℝ)).foldl pushSample p) := by
  induction n with
  | zero => exact fun p _ _ _ hinv => hinv
  | succ n ih =>
    intro p hrun hg1 hg2 hinv
    rw [List.replicate_succ, List.foldl_cons]
    obtain ⟨k1, k2, k3, k4⟩ := pushSample_preserves p 0
    exact ih (pushSample p 0) (k2.trans hrun) (k1 ▸ hg1) (k4 ▸ hg2)
      (pushSample_silent p hrun hg1 hg2 hinv)

/-- **C7 (amended).** While Running from a reset state, analysis events
are exactly-once-per-hop after the initial fill: after `n` samples,
`0` events were dispatched when `n < windowSize`, and
`(n - windowSize)/hopSize + 1` events otherwise — hops before the buffer
fills produce no events.  In the §8 scenario (window 16384, hop 4096,
48 kHz) the four silent hops produce exactly one analysis event (at the
moment the buffer fills), and every event produced during silence carries
a zero smoothed PCD, a zero raw PCD and no primary-pitch result. -/
theorem analysis_event_per_hop :
    (∀ (p : Proc) (xs : List ℝ), p.running = true → 0 < p.config.windowSize →
      0 < p.config.hopSize → p.config.hopSize ≤ p.config.windowSize → p.filled = 0 →
      p.hopCounter = 0 → p.events = [] →
      (handleAudioFrame p xs).events.length =
        (if xs.length < p.config.windowSize then 0
         else (xs.length - p.config.windowSize) / p.config.hopSize + 1)) ∧
    (handleAudioFrame scenarioProc (List.replicate 16384 0)).events.length = 1 ∧
    ∀ e ∈ (handleAudioFrame scenarioProc (List.replicate 16384 0)).events,
      e.pcd = (fun _ => 0) ∧ e.rawPcd = (fun _ => 0) ∧ e.primary = none := by
  have hmain : ∀ (p : Proc) (xs : List ℝ), p.running = true → 0 < p.config.windowSize →
      0 < p.config.hopSize → p.config.hopSize ≤ p.config.windowSize → p.filled = 0 →
      p.hopCounter = 0 → p.events = [] →
      (handleAudioFrame p xs).events.length =
        (if xs.length < p.config.windowSize then 0
         else (xs.length - p.config.windowSize) / p.config.hopSize + 1) := by
    intro p xs hrun hW hh hhW hf hc he
    rw [handleAudioFrame, if_pos hrun]
    exact (feed_stats p hrun hW hh hhW hf hc he xs).2.2.2.2
  have hrun : scenarioProc.running = true := rfl
  have hWv : scenarioProc.config.windowSize = 16384 := rfl
  have hhv : scenarioProc.config.hopSize = 4096 := rfl
  have hcount : (handleAudioFrame scenarioProc (List.replicate 16384 0)).events.length = 1 := by
    rw [hmain scenarioProc (List.replicate 16384 0) rfl (by rw [hWv]; norm_num)
      (by rw [hhv]; norm_num) (by rw [hhv, hWv]; norm_num) rfl rfl rfl]
    rw [List.length_replicate, hWv, hhv]
    norm_num
  refine ⟨hmain, hcount, ?_⟩
  have hsil : SilentInv ((List.replicate 16384 (0 : ℝ)).foldl pushSample scenarioProc) := by
    apply silent_feed 16384 scenarioProc rfl
    · rw [show scenarioProc.config.pcdMinRms = 1/1000 from rfl]
      norm_num
    · rw [show scenarioProc.tunerConfig.minRMS = 3/1000 from rfl]
      norm_num
    · refine ⟨rfl, rfl, rfl, fun e he' => ?_⟩
      rw [show scenarioProc.events = [] from rfl] at he'
      exact absurd he' (List.not_mem_nil e)
  rw [handleAudioFrame, if_pos hrun]
  exact hsil.2.2.2

/-- **C7 counterexample.** In the §8 scenario, the first hop's worth of
samples (4096) produces no analysis event at all — the buffer has not
filled — refuting "for each group of hopSize newly delivered samples one
event is emitted" and "the first 4 hops each produce an analysis
event". -/
theorem analysis_event_per_hop_counterexample :
    (handleAudioFrame scenarioProc (List.replicate 4096 0)).events.length = 0 ∧
      (0 : ℕ) ≠ 1 := by
  have hWv : scenarioProc.config.windowSize = 16384 := rfl
  have hhv : scenarioProc.config.hopSize = 4096 := rfl
  constructor
  · rw [handleAudioFrame, if_pos (show scenarioProc.running = true from rfl)]
    rw [(feed_stats scenarioProc rfl (by rw [hWv]; norm_num) (by rw [hhv]; norm_num)
      (by rw [hhv, hWv]; norm_num) rfl rfl rfl (List.replicate 4096 0)).2.2.2.2]
    rw [List.length_replicate, hWv]
    norm_num
  · norm_num

/-! ## Theorems: C8, the configuration invariant -/

/-- `toPowerOfTwo` always yields a power of two that is at least 32. -/
theorem toPowerOfTwo_spec (v : ℚ) :
    (∃ k, toPowerOfTwo v = 2 ^ k) ∧ 32 ≤ toPowerOfTwo v := by
  rw [toPowerOfTwo]
  refine ⟨⟨_, rfl⟩, ?_⟩
  have h5 : 5 ≤ (max 5 (round (Real.logb 2
      ((max 32 (jsTrunc v) : ℤ) : ℝ)))).toNat := by
    have := le_max_left 5 (round (Real.logb 2 ((max 32 (jsTrunc v) : ℤ) : ℝ)))
    omega
  calc (32 : ℕ) = 2 ^ 5 := by norm_num
  _ ≤ 2 ^ (max 5 (round (Real.logb 2 ((max 32 (jsTrunc v) : ℤ) : ℝ)))).toNat :=
      Nat.pow_le_pow_right (by norm_num) h5

/-- The resulting window of a `windowSize` update step is a power of two
`≥ 32` whenever the current one is. -/
theorem windowNew_getD_spec (o : Option ℚ) (w : ℕ) (hpow : ∃ j, w = 2 ^ j)
    (h32 : 32 ≤ w) :
    (∃ j, (windowNew o w).getD w = 2 ^ j) ∧ 32 ≤ (windowNew o w).getD w := by
  rcases o with _ | v
  · exact ⟨hpow, h32⟩
  · rw [windowNew]
    split
    · split
      · exact ⟨(toPowerOfTwo_spec v).1, (toPowerOfTwo_spec v).2⟩
      · exact ⟨hpow, h32⟩
    · exact ⟨hpow, h32⟩

theorem hopNew_pos (o : Option ℚ) (hop : ℕ) (h : 1 ≤ hop) : 1 ≤ hopNew o hop := by
  rcases o with _ | v
  · exact h
  · rw [hopNew]
    split
    · have := le_max_left (1 : ℤ) (jsTrunc v)
      omega
    · exact h

/-- **C8.** The default configuration satisfies the spec's invariant
(`maxHz > minHz ≥ 0`, window a power of two `≥ 32`, hop in
`[1, windowSize]`), and every `updateConfig` call preserves it — so it
holds after every update sequence starting from the default. -/
theorem updateConfig_invariant :
    ConfigInvariant DEFAULT_AUDIO_CONFIG ∧
      ∀ (p : Proc) (u : ConfigUpdates), ConfigInvariant p.config →
        ConfigInvariant (updateConfig p u).config := by
  constructor
  · exact ⟨by norm_num [DEFAULT_AUDIO_CONFIG], by norm_num [DEFAULT_AUDIO_CONFIG],
      ⟨14, rfl⟩, by norm_num [DEFAULT_AUDIO_CONFIG], by norm_num [DEFAULT_AUDIO_CONFIG],
      by norm_num [DEFAULT_AUDIO_CONFIG]⟩
  · rintro p u ⟨h0, h1, ⟨k, hk⟩, h2, h3, h4⟩
    obtain ⟨hwpow, hw32⟩ :=
      windowNew_getD_spec u.windowSize p.config.windowSize ⟨k, hk⟩ h2
    have hhop := hopNew_pos u.hopSize p.config.hopSize h3
    have hmin : 0 ≤ minHzNew u.minHz p.config.minHz := by
      rcases u.minHz with _ | v
      · exact h0
      · exact le_max_left 0 v
    have hfix : ∀ a b : ℚ, a < (if b ≤ a then a + 1 else b) := by
      intro a b
      split
      · linarith
      · rename_i hgt
        exact not_le.mp hgt
    simp only [updateConfig, ConfigInvariant]
    exact ⟨hmin, hfix _ _, hwpow, hw32, le_min hhop (by omega), min_le_right _ _⟩

/-- Instantiation of `updateConfig_invariant` at a concrete state and
update (the invariant holds for the default configuration, and is kept by
an update that sets only `minHz`). -/
theorem updateConfig_invariant_witness :
    ConfigInvariant (updateConfig
      (initialProc DEFAULT_AUDIO_CONFIG DEFAULT_TUNER_CONFIG 48000)
      ⟨none, none, some 60, none, none, none, none, none, none⟩).config :=
  updateConfig_invariant.2 (initialProc DEFAULT_AUDIO_CONFIG DEFAULT_TUNER_CONFIG 48000)
    ⟨none, none, some 60, none, none, none, none, none, none⟩
    updateConfig_invariant.1

/-! ## Theorems: C9, tuner updates are stored verbatim -/

/-- **C9 (amended).** `updateTuner` merges and stores the supplied fields
verbatim — it neither validates nor clamps — and the stored configuration
reads back exactly the supplied value even when it is out of the
documented range (reactivity outside `[0.05, 1.0]` included); fields not
supplied are unchanged. -/
theorem tuner_update_verbatim (p : Proc) (u : TunerUpdates) (x : ℚ)
    (hx : u.reactivity = some x) :
    (procUpdateTuner p u).tunerConfig.reactivity = x ∧
      (u.minRMS = none → (procUpdateTuner p u).tunerConfig.minRMS =
        p.tunerConfig.minRMS) := by
  constructor
  · simp [procUpdateTuner, updateTuner, hx]
  · intro hm
    simp [procUpdateTuner, updateTuner, hm]

/-- Instantiation of `tuner_update_verbatim` at an out-of-range update
(reactivity 5 is above the documented maximum 1.0 and is stored
anyway). -/
theorem tuner_update_verbatim_witness :
    (procUpdateTuner scenarioProc (reactivityOnlyUpdate 5)).tunerConfig.reactivity = 5 :=
  (tuner_update_verbatim scenarioProc (reactivityOnlyUpdate 5) 5 rfl).1

/-- **C9 counterexample.** After `updateTuner {reactivity: 5}` the stored
reactivity is 5, outside the documented range `[0.05, 1.0]`: the claim
that the stored tuner configuration satisfies its documented ranges after
any update is false — `updateTuner` does not clamp. -/
theorem tuner_clamp_counterexample :
    (procUpdateTuner scenarioProc (reactivityOnlyUpdate 5)).tunerConfig.reactivity = 5 ∧
      ¬ ((5 : ℚ) ≤ 1) := by
  constructor
  · simp [procUpdateTuner, updateTuner, reactivityOnlyUpdate]
  · norm_num

/-! ## Theorems: C10, a window-size change resets the smoothing state -/

/-- **C10.** An `updateConfig` call that carries only a window size, and
whose power-of-two rounding differs from the current window, resets the
fill/write/hop counters, the ring buffer, the smoothed and raw PCD
vectors and the last RMS to zero; the hop size is clamped to the new
window and every other configuration field — and the rest of the
processor state — is left unchanged. -/
theorem window_change_resets (p : Proc) (v : ℚ) (h1 : v ≠ 0)
    (h2 : v ≠ (p.config.windowSize : ℚ)) (h3 : toPowerOfTwo v ≠ p.config.windowSize)
    (h4 : p.config.minHz < p.config.maxHz) :
    (updateConfig p (windowOnlyUpdate v)).writeIndex = 0 ∧
    (updateConfig p (windowOnlyUpdate v)).filled = 0 ∧
    (updateConfig p (windowOnlyUpdate v)).hopCounter = 0 ∧
    (updateConfig p (windowOnlyUpdate v)).ringBuffer = (fun _ => 0) ∧
    (updateConfig p (windowOnlyUpdate v)).currentPcd = (fun _ => 0) ∧
    (updateConfig p (windowOnlyUpdate v)).rawPcd = (fun _ => 0) ∧
    (updateConfig p (windowOnlyUpdate v)).lastRms = 0 ∧
    (updateConfig p (windowOnlyUpdate v)).config.windowSize = toPowerOfTwo v ∧
    (updateConfig p (windowOnlyUpdate v)).config.hopSize =
      min p.config.hopSize (toPowerOfTwo v) ∧
    (updateConfig p (windowOnlyUpdate v)).config.minHz = p.config.minHz ∧
    (updateConfig p (windowOnlyUpdate v)).config.maxHz = p.config.maxHz ∧
    (updateConfig p (windowOnlyUpdate v)).config.smoothing = p.config.smoothing ∧
    (updateConfig p (windowOnlyUpdate v)).config.pcdMinRms = p.config.pcdMinRms ∧
    (updateConfig p (windowOnlyUpdate v)).config.pcdThreshold = p.config.pcdThreshold ∧
    (updateConfig p (windowOnlyUpdate v)).config.pcdNormalize = p.config.pcdNormalize ∧
    (updateConfig p (windowOnlyUpdate v)).config.refA4 = p.config.refA4 ∧
    (updateConfig p (windowOnlyUpdate v)).tunerConfig = p.tunerConfig ∧
    (updateConfig p (windowOnlyUpdate v)).sampleRate = p.sampleRate ∧
    (updateConfig p (windowOnlyUpdate v)).running = p.running ∧
    (updateConfig p (windowOnlyUpdate v)).events = p.events := by
  have hwin : windowNew (some v) p.config.windowSize = some (toPowerOfTwo v) := by
    rw [windowNew, if_pos ⟨h1, h2⟩, if_pos h3]
  have hfix : ¬ p.config.maxHz ≤ p.config.minHz := not_le.mpr h4
  simp only [updateConfig, windowOnlyUpdate, hwin, hopNew, minHzNew, maxHzNew,
    atLeastNew, smoothingNew, Option.getD_some, Option.isSome_some, if_true,
    resetBuffers, if_neg hfix]
  norm_num

/-- `toPowerOfTwo 1024 = 1024` (`log2 1024` rounds to exactly 10). -/
theorem toPowerOfTwo_1024 : toPowerOfTwo 1024 = 1024 := by
  have htr : jsTrunc 1024 = 1024 := by norm_num [jsTrunc]
  have hcast : ((max 32 (jsTrunc (1024 : ℚ)) : ℤ) : ℝ) = 2 ^ (10 : ℕ) := by
    rw [htr]
    norm_num
  rw [toPowerOfTwo, hcast]
  have hlog : Real.logb 2 ((2 : ℝ) ^ (10 : ℕ)) = 10 := by
    rw [Real.logb_pow, Real.logb_self_eq_one (by norm_num)]
    norm_num
  rw [hlog]
  have hround : round ((10 : ℝ)) = 10 := by
    rw [show ((10 : ℝ)) = ((10 : ℤ) : ℝ) by norm_num, round_intCast]
  rw [hround]
  decide

/-- Instantiation of `window_change_resets` at the scenario processor and
window size 1024 (all four hypotheses hold: 1024 is truthy, differs from
16384, rounds to 1024 ≠ 16384, and the default band is valid). -/
theorem window_change_resets_witness :
    (updateConfig scenarioProc (windowOnlyUpdate 1024)).config.windowSize =
      toPowerOfTwo 1024 :=
  (window_change_resets scenarioProc 1024 (by norm_num)
    (by rw [show scenarioProc.config.windowSize = 16384 from rfl]; norm_num)
    (by rw [toPowerOfTwo_1024, show scenarioProc.config.windowSize = 16384 from rfl]
        norm_num)
    (by rw [show scenarioProc.config.minHz = 50 from rfl,
          show scenarioProc.config.maxHz = 5000 from rfl]
        norm_num)).2.2.2.2.2.2.2.1

end MobilePCD
